import Mathlib

/-!
Shallow embedding of the Borůvka minimum-spanning-tree implementation in
`include/gunrock/algorithms/mst.hxx`.

Modelling conventions:
* `weight_t` (a float in the source) is modelled as `Int`: every claim uses
  only the total order, `min`/`max`, equality and addition of weights, which
  a totally ordered additive group captures; the sentinel
  `std::numeric_limits<weight_t>::max()` is modelled as `⊤` in `WithTop Int`,
  which plays the same role of a value no real edge weight reaches.
* edge ids are `Nat` (indices into the edge list); the `min_neighbors` array
  holds `Int` so the `-1` sentinel is representable, exactly as the `int`
  cells of the source.
* every data-parallel bulk operation is modelled as a fold over a list of
  ids; the list order is one interleaving of the per-element atomic
  operations, and theorems quantify over that order where the claim needs it.
* `thrust::device_vector` cells are list entries accessed with `getD`.
-/

namespace GunrockMST

/-- Modelled from the spec: the graph collaborator is external to the core
(the spec excludes the generic graph container) and provides
`vertex_count`, `edge_count`, `source_vertex(edge_id)`,
`destination_vertex(edge_id)` and `edge_weight(edge_id)`.  An edge is a
(source, destination, weight) triple and edge ids index the edge list. -/
structure Edge where
  src : Nat
  dst : Nat
  w : Int
deriving DecidableEq

/-- Modelled from the spec: graph with a vertex count and an edge list. -/
structure Graph where
  numVertices : Nat
  edges : List Edge
deriving DecidableEq

def Graph.get_source_vertex (G : Graph) (e : Nat) : Nat :=
  (G.edges.getD e ⟨0, 0, 0⟩).src

def Graph.get_destination_vertex (G : Graph) (e : Nat) : Nat :=
  (G.edges.getD e ⟨0, 0, 0⟩).dst

def Graph.get_edge_weight (G : Graph) (e : Nat) : Int :=
  (G.edges.getD e ⟨0, 0, 0⟩).w

/-- The state owned by `problem_t`: the per-vertex arrays `roots`,
`new_roots`, `min_weights`, `min_neighbors` and the scalar cells
`mst_weight` (`result.mst_weight`), `mst_edges` and `super_vertices`. -/
structure MstState where
  roots : List Nat
  new_roots : List Nat
  min_weights : List (WithTop Int)
  min_neighbors : List Int
  mst_weight : Int
  mst_edges : Int
  super_vertices : Int
deriving DecidableEq

/-- `problem_t::init`: `roots` and `new_roots` are filled with the sequence
`0, 1, ...`, `min_weights` with the weight sentinel, `min_neighbors` with
`-1`, `mst_weight` with `0`, and the single-element `super_vertices` vector
with the sequence starting at `n_vertices`.  The `mst_edges` cell is
value-initialized to `0` by `thrust::device_vector::resize`. -/
def init (n : Nat) : MstState where
  roots := List.range n
  new_roots := List.range n
  min_weights := List.replicate n ⊤
  min_neighbors := List.replicate n (-1)
  mst_weight := 0
  mst_edges := 0
  super_vertices := (n : Int)

/-- The `get_min_weights` lambda of `enactor_t::loop`, acting on one edge:
if the roots of the endpoints differ, atomically lower
`min_weights[roots[source]]` with the edge weight and keep the edge iff the
weight is strictly below the value the atomic min returned; otherwise drop
the edge without writing. -/
def get_min_weights (G : Graph) (s : MstState) (e : Nat) : MstState × Bool :=
  let source := G.get_source_vertex e
  let neighbor := G.get_destination_vertex e
  let weight : WithTop Int := (G.get_edge_weight e : Int)
  if s.roots.getD source 0 ≠ s.roots.getD neighbor 0 then
    let old_weight := s.min_weights.getD (s.roots.getD source 0) ⊤
    ({ s with min_weights :=
        s.min_weights.set (s.roots.getD source 0) (min old_weight weight) },
      decide (weight < old_weight))
  else
    (s, false)

/-- The `get_min_neighbors` lambda of `enactor_t::loop`, acting on one edge:
if the edge weight equals `min_weights[roots[source]]`, atomically raise
`min_neighbors[roots[source]]` with the edge id and keep the edge iff the
value the atomic max returned is strictly below the edge id; otherwise drop
the edge without writing. -/
def get_min_neighbors (G : Graph) (s : MstState) (e : Nat) : MstState × Bool :=
  let source := G.get_source_vertex e
  let weight : WithTop Int := (G.get_edge_weight e : Int)
  if weight = s.min_weights.getD (s.roots.getD source 0) ⊤ then
    let old_val := s.min_neighbors.getD (s.roots.getD source 0) (-1)
    ({ s with min_neighbors :=
        s.min_neighbors.set (s.roots.getD source 0) (max old_val (e : Int)) },
      decide (old_val < (e : Int)))
  else
    (s, false)

/-- The `remove_ties` lambda of `enactor_t::loop`: keep an edge iff it is
the edge recorded in `min_neighbors[roots[source]]`. -/
def remove_ties (G : Graph) (s : MstState) (e : Nat) : Bool :=
  decide ((e : Int) =
    s.min_neighbors.getD (s.roots.getD (G.get_source_vertex e) 0) (-1))

/-- The `remove_dups` lambda of `enactor_t::loop`: keep an edge iff
`source < dest`, or the edge recorded for the destination's component does
not point back at `(dest, source)`.  The `Int.toNat` conversion models
indexing the edge list with the stored `int` id. -/
def remove_dups (G : Graph) (s : MstState) (e : Nat) : Bool :=
  let source := G.get_source_vertex e
  let dest := G.get_destination_vertex e
  let elected := (s.min_neighbors.getD (s.roots.getD dest 0) (-1)).toNat
  decide (source < dest) ||
    decide (G.get_destination_vertex elected ≠ source) ||
    decide (G.get_source_vertex elected ≠ dest)

/-- The `add_to_mst` lambda of `enactor_t::loop`, acting on one vertex: when
`min_weights[v]` is not the sentinel and the reciprocity condition of
`remove_dups` holds for `min_neighbors[v]`, atomically add the weight to
`mst_weight`, add `1` to `mst_edges`, add `-1` to `super_vertices` and
exchange `new_roots[v]` with `new_roots[dest]`. -/
def add_to_mst (G : Graph) (s : MstState) (v : Nat) : MstState :=
  if s.min_weights.getD v ⊤ = ⊤ then s
  else
    let mn := (s.min_neighbors.getD v (-1)).toNat
    let source := G.get_source_vertex mn
    let dest := G.get_destination_vertex mn
    let weight := (s.min_weights.getD v ⊤).untop' 0
    let elected := (s.min_neighbors.getD (s.roots.getD dest 0) (-1)).toNat
    if source < dest ∨ G.get_destination_vertex elected ≠ source ∨
        G.get_source_vertex elected ≠ dest then
      { s with
        mst_weight := s.mst_weight + weight
        mst_edges := s.mst_edges + 1
        super_vertices := s.super_vertices + (-1)
        new_roots := s.new_roots.set v (s.new_roots.getD dest 0) }
    else s

/-- The while loop inside `jump_pointers_parallel`, with explicit fuel: from
`u`, repeatedly move to `roots[u]` until `roots[u] == u`.  An out-of-range
cell reads as its own index, so out-of-range starting points are fixed. -/
def chase (roots : List Nat) : Nat → Nat → Nat
  | 0, u => u
  | fuel + 1, u => if roots.getD u u = u then u else chase roots fuel (roots.getD u u)

/-- The `jump_pointers_parallel` lambda acting on one vertex: chase root
pointers starting from `roots[v]` until a fixed point. -/
def jump_pointers_parallel (roots : List Nat) (fuel : Nat) (v : Nat) : Nat :=
  chase roots fuel (roots.getD v v)

/-- One whole jump-pointers pass over the vertex domain, producing the
`new_roots` array.  The source's while loop carries no fuel; fuel equal to
the array length is enough whenever the chains terminate at all (shown by
`chase_isRoot` below via a pigeonhole argument), which is the only case in
which the source loop returns. -/
def contract (roots : List Nat) : List Nat :=
  (List.range roots.length).map (jump_pointers_parallel roots roots.length)

/-- Modelled from the spec: the bulk-operator runtime's
"filter a frontier with a keep/drop predicate" primitive (keep-if-true
semantics), which the core submits its per-edge lambdas to.  The fold order
is one interleaving of the data-parallel execution. -/
def runFilter (step : MstState → Nat → MstState × Bool) :
    MstState → List Nat → MstState × List Nat
  | s, [] => (s, [])
  | s, e :: es =>
    let p := step s e
    let q := runFilter step p.1 es
    (q.1, if p.2 then e :: q.2 else q.2)

/-- One `enactor_t::loop` iteration: refill `min_weights` and
`min_neighbors`, run the four edge-domain operators, run `add_to_mst` over
the vertex domain, copy `new_roots` into `roots`, jump pointers, and copy
again.  The output frontier is the narrowed frontier, carried into the next
round (modelled from the spec: the round keeps filtering the same frontier
object across rounds). -/
def round (G : Graph) (sf : MstState × List Nat) : MstState × List Nat :=
  let n := G.numVertices
  let s0 := { sf.1 with
    min_weights := List.replicate n (⊤ : WithTop Int)
    min_neighbors := List.replicate n (-1 : Int) }
  let r1 := runFilter (get_min_weights G) s0 sf.2
  let r2 := runFilter (get_min_neighbors G) r1.1 r1.2
  let r3 := runFilter (fun t e => (t, remove_ties G t e)) r2.1 r2.2
  let r4 := runFilter (fun t e => (t, remove_dups G t e)) r3.1 r3.2
  let s5 := (List.range n).foldl (add_to_mst G) r4.1
  let s6 := { s5 with roots := s5.new_roots }
  let s7 := { s6 with new_roots := contract s6.roots }
  let s8 := { s7 with roots := s7.new_roots }
  (s8, r4.2)

/-- `enactor_t::is_converged`: the loop stops iff `super_vertices == 1`. -/
def is_converged (s : MstState) : Bool :=
  decide (s.super_vertices = 1)

/-- `enactor_t::prepare_frontier`: the initial frontier is the sequence of
all edge ids. -/
def prepare_frontier (G : Graph) : List Nat :=
  List.range G.edges.length

/-- The enactor after `k` rounds, starting from `problem_t::init` and the
prepared frontier. -/
def enactRounds (G : Graph) : Nat → MstState × List Nat
  | 0 => (init G.numVertices, prepare_frontier G)
  | k + 1 => round G (enactRounds G k)

/-- A two-vertex connected graph whose single undirected edge has negative
weight (stored in both directions, as in a symmetric CSR). -/
def negG : Graph :=
  ⟨2, [⟨0, 1, -5⟩, ⟨1, 0, -5⟩]⟩

/-- A connected four-vertex graph: two cheap clusters 0-1 and 2-3 joined by
an expensive edge 1-2 (all edges stored in both directions). -/
def stallG : Graph :=
  ⟨4, [⟨0, 1, 1⟩, ⟨1, 0, 1⟩, ⟨1, 2, 10⟩, ⟨2, 1, 10⟩, ⟨2, 3, 1⟩, ⟨3, 2, 1⟩]⟩

/-- Two disjoint triangles 0-1-2 and 3-4-5: a disconnected graph (all edges
stored in both directions). -/
def discG : Graph :=
  ⟨6, [⟨0, 1, 1⟩, ⟨0, 2, 3⟩, ⟨1, 0, 1⟩, ⟨1, 2, 2⟩, ⟨2, 0, 3⟩, ⟨2, 1, 2⟩,
       ⟨3, 4, 1⟩, ⟨3, 5, 3⟩, ⟨4, 3, 1⟩, ⟨4, 5, 2⟩, ⟨5, 3, 3⟩, ⟨5, 4, 2⟩]⟩

/-- The property claimed of the edge-relaxation phase for one edge `e` of
the frontier `l₁ ++ e :: l₂` (so `l₁` is everything the interleaving runs
before `e`): when the roots of the endpoints agree the edge is dropped with
no write; otherwise `min_weights[roots[source]]` is lowered to the minimum
of its current value and the edge weight, and `e` survives in the phase
output iff its weight is strictly below the cell value immediately before
its own update. -/
def RelaxationClaim (G : Graph) (s : MstState) (l₁ l₂ : List Nat) (e : Nat) : Prop :=
  (s.roots.getD (G.get_source_vertex e) 0 = s.roots.getD (G.get_destination_vertex e) 0 →
    get_min_weights G (runFilter (get_min_weights G) s l₁).1 e =
      ((runFilter (get_min_weights G) s l₁).1, false)) ∧
  (s.roots.getD (G.get_source_vertex e) 0 ≠ s.roots.getD (G.get_destination_vertex e) 0 →
    ((get_min_weights G (runFilter (get_min_weights G) s l₁).1 e).1).min_weights.getD
        (s.roots.getD (G.get_source_vertex e) 0) ⊤ =
      min (((runFilter (get_min_weights G) s l₁).1).min_weights.getD
            (s.roots.getD (G.get_source_vertex e) 0) ⊤)
        ((G.get_edge_weight e : Int) : WithTop Int)) ∧
  (e ∈ (runFilter (get_min_weights G) s (l₁ ++ e :: l₂)).2 ↔
    s.roots.getD (G.get_source_vertex e) 0 ≠ s.roots.getD (G.get_destination_vertex e) 0 ∧
      ((G.get_edge_weight e : Int) : WithTop Int) <
        ((runFilter (get_min_weights G) s l₁).1).min_weights.getD
          (s.roots.getD (G.get_source_vertex e) 0) ⊤)

/-- The property claimed of the neighbor-selection phase for one edge `e` of
the frontier `l₁ ++ e :: l₂`: when the edge weight differs from the
component's post-relaxation minimum the edge is dropped with no write;
on equality `min_neighbors[roots[source]]` is raised to the maximum of its
current value and the edge id, and `e` survives in the phase output iff that
update strictly increased the cell. -/
def SelectionClaim (G : Graph) (s : MstState) (l₁ l₂ : List Nat) (e : Nat) : Prop :=
  (((G.get_edge_weight e : Int) : WithTop Int) ≠
      s.min_weights.getD (s.roots.getD (G.get_source_vertex e) 0) ⊤ →
    get_min_neighbors G (runFilter (get_min_neighbors G) s l₁).1 e =
      ((runFilter (get_min_neighbors G) s l₁).1, false)) ∧
  (((G.get_edge_weight e : Int) : WithTop Int) =
      s.min_weights.getD (s.roots.getD (G.get_source_vertex e) 0) ⊤ →
    ((get_min_neighbors G (runFilter (get_min_neighbors G) s l₁).1 e).1).min_neighbors.getD
        (s.roots.getD (G.get_source_vertex e) 0) (-1) =
      max (((runFilter (get_min_neighbors G) s l₁).1).min_neighbors.getD
            (s.roots.getD (G.get_source_vertex e) 0) (-1)) (e : Int)) ∧
  (e ∈ (runFilter (get_min_neighbors G) s (l₁ ++ e :: l₂)).2 ↔
    ((G.get_edge_weight e : Int) : WithTop Int) =
      s.min_weights.getD (s.roots.getD (G.get_source_vertex e) 0) ⊤ ∧
    ((runFilter (get_min_neighbors G) s l₁).1).min_neighbors.getD
        (s.roots.getD (G.get_source_vertex e) 0) (-1) <
      max (((runFilter (get_min_neighbors G) s l₁).1).min_neighbors.getD
            (s.roots.getD (G.get_source_vertex e) 0) (-1)) (e : Int))

/-- One pointer-chasing move: read `roots[u]`, with an out-of-range cell
reading as `u` itself. -/
def step1 (roots : List Nat) (u : Nat) : Nat := roots.getD u u

/-- The exit condition of the source's while loop: `roots[u] == u`. -/
def IsRoot (roots : List Nat) (u : Nat) : Prop := roots.getD u u = u

instance (roots : List Nat) (u : Nat) : Decidable (IsRoot roots u) := by
  unfold IsRoot
  infer_instance

/-- The hypothesis of the contraction claim: pointer chasing terminates from
every starting point (no cycle among root pointers), so the source's while
loop returns. -/
def Terminates (roots : List Nat) : Prop :=
  ∀ v : Nat, ∃ k : Nat, IsRoot roots ((step1 roots)^[k] v)

/-- The guard under which `add_to_mst` performs its updates: `min_weights[v]`
differs from the sentinel and the reciprocity condition of `remove_dups`
holds for the edge recorded in `min_neighbors[v]`. -/
def CommitActs (G : Graph) (s : MstState) (v : Nat) : Prop :=
  s.min_weights.getD v ⊤ ≠ ⊤ ∧
    (G.get_source_vertex ((s.min_neighbors.getD v (-1)).toNat) <
        G.get_destination_vertex ((s.min_neighbors.getD v (-1)).toNat) ∨
      G.get_destination_vertex
          ((s.min_neighbors.getD
            (s.roots.getD
              (G.get_destination_vertex ((s.min_neighbors.getD v (-1)).toNat)) 0)
            (-1)).toNat) ≠
        G.get_source_vertex ((s.min_neighbors.getD v (-1)).toNat) ∨
      G.get_source_vertex
          ((s.min_neighbors.getD
            (s.roots.getD
              (G.get_destination_vertex ((s.min_neighbors.getD v (-1)).toNat)) 0)
            (-1)).toNat) ≠
        G.get_destination_vertex ((s.min_neighbors.getD v (-1)).toNat))

instance (G : Graph) (s : MstState) (v : Nat) : Decidable (CommitActs G s v) := by
  unfold CommitActs
  infer_instance

/-- A concrete two-vertex state used as a commit-phase example: component 0
has candidate weight 1 recorded for edge 0. -/
def exampleState : MstState where
  roots := [0, 1]
  new_roots := [0, 1]
  min_weights := [(1 : Int), ⊤]
  min_neighbors := [0, -1]
  mst_weight := 0
  mst_edges := 0
  super_vertices := 2

theorem getD_set_self {α : Type} (l : List α) (i : Nat) (x d : α) (h : i < l.length) :
    (l.set i x).getD i d = x := by
  induction l generalizing i with
  | nil => simp at h
  | cons a l ih =>
    cases i with
    | zero => rfl
    | succ i => exact ih i (Nat.lt_of_succ_lt_succ h)

theorem getD_set_ne {α : Type} (l : List α) (x d : α) {i j : Nat} (h : i ≠ j) :
    (l.set i x).getD j d = l.getD j d := by
  induction l generalizing i j with
  | nil => rfl
  | cons a l ih =>
    cases i with
    | zero =>
      cases j with
      | zero => exact absurd rfl h
      | succ j => rfl
    | succ i =>
      cases j with
      | zero => rfl
      | succ j => exact ih fun hij => h (by omega)

theorem runFilter_append (step : MstState → Nat → MstState × Bool)
    (s : MstState) (l₁ l₂ : List Nat) :
    runFilter step s (l₁ ++ l₂) =
      ((runFilter step (runFilter step s l₁).1 l₂).1,
        (runFilter step s l₁).2 ++ (runFilter step (runFilter step s l₁).1 l₂).2) := by
  induction l₁ generalizing s with
  | nil => simp [runFilter]
  | cons e es ih =>
    simp only [List.cons_append, runFilter, List.append_eq]
    rw [ih]
    cases hb : (step s e).2 <;> simp

theorem runFilter_mem (step : MstState → Nat → MstState × Bool)
    (s : MstState) (l : List Nat) (e : Nat) (he : e ∈ (runFilter step s l).2) :
    e ∈ l := by
  induction l generalizing s with
  | nil => simp [runFilter] at he
  | cons a l ih =>
    simp only [runFilter] at he
    cases hb : (step s a).2 with
    | false =>
      rw [hb] at he
      simp only [Bool.false_eq_true, if_false] at he
      exact List.mem_cons_of_mem a (ih (step s a).1 he)
    | true =>
      rw [hb] at he
      simp only [if_true, List.mem_cons] at he
      rcases he with he | he
      · simp [he]
      · exact List.mem_cons_of_mem a (ih (step s a).1 he)

theorem runFilter_fieldEq {α : Type} (f : MstState → α)
    (step : MstState → Nat → MstState × Bool)
    (h : ∀ t e, f ((step t e).1) = f t) (l : List Nat) (s : MstState) :
    f ((runFilter step s l).1) = f s := by
  induction l generalizing s with
  | nil => rfl
  | cons e es ih => simp only [runFilter]; rw [ih, h]

theorem runFilter_pure (p : MstState → Nat → Bool) (s : MstState) (l : List Nat) :
    runFilter (fun t e => (t, p t e)) s l = (s, l.filter (p s)) := by
  induction l with
  | nil => rfl
  | cons e es ih =>
    simp only [runFilter, ih, List.filter_cons]

theorem get_min_weights_roots (G : Graph) (t : MstState) (e : Nat) :
    ((get_min_weights G t e).1).roots = t.roots := by
  simp only [get_min_weights]
  split <;> rfl

theorem get_min_weights_mwLen (G : Graph) (t : MstState) (e : Nat) :
    ((get_min_weights G t e).1).min_weights.length = t.min_weights.length := by
  simp only [get_min_weights]
  split <;> simp

theorem get_min_neighbors_roots (G : Graph) (t : MstState) (e : Nat) :
    ((get_min_neighbors G t e).1).roots = t.roots := by
  simp only [get_min_neighbors]
  split <;> rfl

theorem get_min_neighbors_mw (G : Graph) (t : MstState) (e : Nat) :
    ((get_min_neighbors G t e).1).min_weights = t.min_weights := by
  simp only [get_min_neighbors]
  split <;> rfl

theorem get_min_neighbors_mnLen (G : Graph) (t : MstState) (e : Nat) :
    ((get_min_neighbors G t e).1).min_neighbors.length = t.min_neighbors.length := by
  simp only [get_min_neighbors]
  split <;> simp

/-- C7: After initialization, every vertex is its own root in both root
arrays, every `min_weights` cell holds the weight sentinel, every
`min_neighbors` cell holds `-1`, and the three scalars are `mst_weight = 0`,
`mst_edges = 0` and `super_vertices = n_vertices`. -/
theorem c7_initialization (n v : Nat) (hv : v < n) :
    (init n).roots.getD v 0 = v ∧
    (init n).new_roots.getD v 0 = v ∧
    (init n).min_weights.getD v 0 = ⊤ ∧
    (init n).min_neighbors.getD v 0 = -1 ∧
    (init n).mst_weight = 0 ∧
    (init n).mst_edges = 0 ∧
    (init n).super_vertices = (n : Int) := by
  refine ⟨?_, ?_, ?_, ?_, rfl, rfl, rfl⟩ <;>
    simp [init, List.getD, List.getElem?_range hv, List.getElem?_replicate, hv]

/-- Witness for C7 at `n = 3`, `v = 1`. -/
theorem c7_initialization_witness :
    1 < 3 ∧
    ((init 3).roots.getD 1 0 = 1 ∧
     (init 3).new_roots.getD 1 0 = 1 ∧
     (init 3).min_weights.getD 1 0 = ⊤ ∧
     (init 3).min_neighbors.getD 1 0 = -1 ∧
     (init 3).mst_weight = 0 ∧
     (init 3).mst_edges = 0 ∧
     (init 3).super_vertices = (3 : Int)) :=
  ⟨by decide, c7_initialization 3 1 (by decide)⟩

theorem get_min_weights_keep (G : Graph) (t : MstState) (e : Nat) :
    (get_min_weights G t e).2 = true ↔
      (t.roots.getD (G.get_source_vertex e) 0 ≠
        t.roots.getD (G.get_destination_vertex e) 0 ∧
       ((G.get_edge_weight e : Int) : WithTop Int) <
        t.min_weights.getD (t.roots.getD (G.get_source_vertex e) 0) ⊤) := by
  simp only [get_min_weights]
  split
  next h =>
    constructor
    · intro hk
      exact ⟨h, of_decide_eq_true hk⟩
    · intro hk
      exact decide_eq_true hk.2
  next h =>
    constructor
    · intro hk
      simp at hk
    · intro hk
      exact absurd hk.1 h

theorem get_min_neighbors_keep (G : Graph) (t : MstState) (e : Nat) :
    (get_min_neighbors G t e).2 = true ↔
      (((G.get_edge_weight e : Int) : WithTop Int) =
        t.min_weights.getD (t.roots.getD (G.get_source_vertex e) 0) ⊤ ∧
       t.min_neighbors.getD (t.roots.getD (G.get_source_vertex e) 0) (-1) < (e : Int)) := by
  simp only [get_min_neighbors]
  split
  next h =>
    constructor
    · intro hk
      exact ⟨h, of_decide_eq_true hk⟩
    · intro hk
      exact decide_eq_true hk.2
  next h =>
    constructor
    · intro hk
      simp at hk
    · intro hk
      exact absurd hk.1 h

theorem runFilter_mem_middle (step : MstState → Nat → MstState × Bool)
    (s : MstState) (l₁ l₂ : List Nat) (e : Nat) (h₁ : e ∉ l₁) (h₂ : e ∉ l₂) :
    (e ∈ (runFilter step s (l₁ ++ e :: l₂)).2 ↔
      (step (runFilter step s l₁).1 e).2 = true) := by
  rw [runFilter_append]
  simp only [runFilter, List.mem_append]
  have hk₁ : e ∉ (runFilter step s l₁).2 := fun h => h₁ (runFilter_mem _ _ _ _ h)
  have hq : e ∉ (runFilter step (step (runFilter step s l₁).1 e).1 l₂).2 :=
    fun h => h₂ (runFilter_mem _ _ _ _ h)
  cases hb : (step (runFilter step s l₁).1 e).2 <;> simp [hb, hk₁, hq]

/-- C1: For every edge e of the current frontier, the edge-relaxation phase
drops e (returning false, writing nothing) when the roots of its endpoints
agree; otherwise it atomically lowers `min_weights[roots[source]]` to the
minimum of its current value and the edge weight, and e survives in the
frontier iff its weight is strictly less than the value the cell held
immediately before e's own update (here: after the prefix `l₁` of the
interleaving ran). -/
theorem c1_edge_relaxation (G : Graph) (s : MstState) (l₁ l₂ : List Nat) (e : Nat)
    (h₁ : e ∉ l₁) (h₂ : e ∉ l₂)
    (hc : s.roots.getD (G.get_source_vertex e) 0 < s.min_weights.length) :
    RelaxationClaim G s l₁ l₂ e := by
  have hr : ((runFilter (get_min_weights G) s l₁).1).roots = s.roots :=
    runFilter_fieldEq MstState.roots _ (fun t e => get_min_weights_roots G t e) l₁ s
  have hlen : ((runFilter (get_min_weights G) s l₁).1).min_weights.length =
      s.min_weights.length :=
    runFilter_fieldEq (fun t => t.min_weights.length) _
      (fun t e => get_min_weights_mwLen G t e) l₁ s
  refine ⟨?_, ?_, ?_⟩
  · intro h
    simp only [get_min_weights, hr, h, ne_eq, not_true_eq_false, if_false]
  · intro h
    simp only [get_min_weights, hr]
    rw [if_pos (by simpa using h)]
    exact getD_set_self _ _ _ _ (by rw [hlen]; exact hc)
  · rw [runFilter_mem_middle _ _ _ _ _ h₁ h₂, get_min_weights_keep, hr]

/-- Witness for C1: the first directed edge of the negative-weight two-vertex
graph, relaxed from the freshly initialized state with an empty prefix. -/
theorem c1_edge_relaxation_witness :
    (0 ∉ ([] : List Nat)) ∧
    (init 2).roots.getD (negG.get_source_vertex 0) 0 < (init 2).min_weights.length ∧
    RelaxationClaim negG (init 2) [] [] 0 :=
  ⟨by decide, by decide,
    c1_edge_relaxation negG (init 2) [] [] 0 (by decide) (by decide) (by decide)⟩

/-- C2: For every edge e surviving relaxation, the neighbor-selection phase
compares the edge weight to the post-relaxation
`min_weights[roots[source]]`; on equality it atomically sets
`min_neighbors[roots[source]]` to the max of its current value and the edge
id, and e survives iff that update strictly increased the cell; an edge
whose weight differs from the component minimum is dropped without writing.
(`min_weights` is never written in this phase, so the comparison is always
against the post-relaxation minimum held in `s`.) -/
theorem c2_neighbor_selection (G : Graph) (s : MstState) (l₁ l₂ : List Nat) (e : Nat)
    (h₁ : e ∉ l₁) (h₂ : e ∉ l₂)
    (hc : s.roots.getD (G.get_source_vertex e) 0 < s.min_neighbors.length) :
    SelectionClaim G s l₁ l₂ e := by
  have hr : ((runFilter (get_min_neighbors G) s l₁).1).roots = s.roots :=
    runFilter_fieldEq MstState.roots _ (fun t e => get_min_neighbors_roots G t e) l₁ s
  have hw : ((runFilter (get_min_neighbors G) s l₁).1).min_weights = s.min_weights :=
    runFilter_fieldEq MstState.min_weights _ (fun t e => get_min_neighbors_mw G t e) l₁ s
  have hlen : ((runFilter (get_min_neighbors G) s l₁).1).min_neighbors.length =
      s.min_neighbors.length :=
    runFilter_fieldEq (fun t => t.min_neighbors.length) _
      (fun t e => get_min_neighbors_mnLen G t e) l₁ s
  refine ⟨?_, ?_, ?_⟩
  · intro h
    simp only [get_min_neighbors, hr, hw]
    rw [if_neg h]
  · intro h
    simp only [get_min_neighbors, hr, hw]
    rw [if_pos h]
    exact getD_set_self _ _ _ _ (by rw [hlen]; exact hc)
  · rw [runFilter_mem_middle _ _ _ _ _ h₁ h₂, get_min_neighbors_keep, hr, hw]
    constructor
    · rintro ⟨hweq, hlt⟩
      exact ⟨hweq, lt_max_iff.mpr (Or.inr hlt)⟩
    · rintro ⟨hweq, hlt⟩
      rcases lt_max_iff.mp hlt with h | h
      · exact absurd h (lt_irrefl _)
      · exact ⟨hweq, h⟩

/-- Witness for C2: the first directed edge of the negative-weight two-vertex
graph, selected from the state produced by relaxing both edges. -/
theorem c2_neighbor_selection_witness :
    (0 ∉ ([] : List Nat)) ∧
    (runFilter (get_min_weights negG) (init 2) [0, 1]).1.roots.getD
        (negG.get_source_vertex 0) 0 <
      (runFilter (get_min_weights negG) (init 2) [0, 1]).1.min_neighbors.length ∧
    SelectionClaim negG (runFilter (get_min_weights negG) (init 2) [0, 1]).1 [] [] 0 :=
  ⟨by decide, by decide,
    c2_neighbor_selection negG (runFilter (get_min_weights negG) (init 2) [0, 1]).1
      [] [] 0 (by decide) (by decide) (by decide)⟩

/-- C3: The symmetry-breaking phase is exactly two sequential keep-if-true
filters over the narrowed frontier, leaving the state untouched: first keep
e iff e equals `min_neighbors[roots[source]]`; then, among survivors
e = (s, d), keep e iff `s < d` or the elected edge of `roots[d]` does not
point back at `(d, s)` (its destination is not s or its source is not d). -/
theorem c3_symmetry_breaking (G : Graph) (s : MstState) (l : List Nat) :
    runFilter (fun t e => (t, remove_dups G t e))
        (runFilter (fun t e => (t, remove_ties G t e)) s l).1
        (runFilter (fun t e => (t, remove_ties G t e)) s l).2 =
      (s,
        (l.filter (fun e : Nat => decide ((e : Int) =
            s.min_neighbors.getD (s.roots.getD (G.get_source_vertex e) 0) (-1)))).filter
          (fun e : Nat => decide (G.get_source_vertex e < G.get_destination_vertex e ∨
            G.get_destination_vertex
                ((s.min_neighbors.getD
                  (s.roots.getD (G.get_destination_vertex e) 0) (-1)).toNat) ≠
              G.get_source_vertex e ∨
            G.get_source_vertex
                ((s.min_neighbors.getD
                  (s.roots.getD (G.get_destination_vertex e) 0) (-1)).toNat) ≠
              G.get_destination_vertex e))) := by
  rw [runFilter_pure, runFilter_pure]
  have hd : remove_dups G s =
      (fun e : Nat => decide (G.get_source_vertex e < G.get_destination_vertex e ∨
        G.get_destination_vertex
            ((s.min_neighbors.getD
              (s.roots.getD (G.get_destination_vertex e) 0) (-1)).toNat) ≠
          G.get_source_vertex e ∨
        G.get_source_vertex
            ((s.min_neighbors.getD
              (s.roots.getD (G.get_destination_vertex e) 0) (-1)).toNat) ≠
          G.get_destination_vertex e)) := by
    funext e
    simp [remove_dups, Bool.decide_or, Bool.or_assoc]
  dsimp only
  rw [hd]
  rfl

/-- C4: For every vertex v the commit phase acts iff `min_weights[v]`
differs from the sentinel and the reciprocity condition of the
symmetry-breaking phase holds for `min_neighbors[v]`; when it acts it adds
`min_weights[v]` to `mst_weight`, increments `mst_edges` by one, decrements
`super_vertices` by one and sets `new_roots[v]` to
`new_roots[destination(min_neighbors[v])]`, touching nothing else; when it
does not act it changes nothing. -/
theorem c4_commit (G : Graph) (s : MstState) (v : Nat) :
    (CommitActs G s v →
      add_to_mst G s v =
        { s with
          mst_weight := s.mst_weight + (s.min_weights.getD v ⊤).untop' 0
          mst_edges := s.mst_edges + 1
          super_vertices := s.super_vertices - 1
          new_roots := s.new_roots.set v
            (s.new_roots.getD
              (G.get_destination_vertex ((s.min_neighbors.getD v (-1)).toNat)) 0) }) ∧
    (¬ CommitActs G s v → add_to_mst G s v = s) := by
  constructor
  · rintro ⟨hmw, hrec⟩
    simp only [add_to_mst]
    rw [if_neg (by exact hmw), if_pos hrec]
    have hsub : s.super_vertices + (-1) = s.super_vertices - 1 := by ring
    rw [hsub]
  · intro h
    simp only [add_to_mst]
    by_cases hmw : s.min_weights.getD v ⊤ = ⊤
    · rw [if_pos hmw]
    · rw [if_neg hmw]
      have hrec : ¬ (G.get_source_vertex ((s.min_neighbors.getD v (-1)).toNat) <
          G.get_destination_vertex ((s.min_neighbors.getD v (-1)).toNat) ∨
        G.get_destination_vertex
            ((s.min_neighbors.getD
              (s.roots.getD
                (G.get_destination_vertex ((s.min_neighbors.getD v (-1)).toNat)) 0)
              (-1)).toNat) ≠
          G.get_source_vertex ((s.min_neighbors.getD v (-1)).toNat) ∨
        G.get_source_vertex
            ((s.min_neighbors.getD
              (s.roots.getD
                (G.get_destination_vertex ((s.min_neighbors.getD v (-1)).toNat)) 0)
              (-1)).toNat) ≠
          G.get_destination_vertex ((s.min_neighbors.getD v (-1)).toNat)) :=
        fun hr => h ⟨hmw, hr⟩
      rw [if_neg hrec]

/-- Witness for C4: the acting branch on a concrete two-vertex state with a
valid recorded edge. -/
theorem c4_commit_witness :
    CommitActs negG exampleState 0 ∧
    add_to_mst negG exampleState 0 =
      { exampleState with
        mst_weight := exampleState.mst_weight +
          (exampleState.min_weights.getD 0 ⊤).untop' 0
        mst_edges := exampleState.mst_edges + 1
        super_vertices := exampleState.super_vertices - 1
        new_roots := exampleState.new_roots.set 0
          (exampleState.new_roots.getD
            (negG.get_destination_vertex
              ((exampleState.min_neighbors.getD 0 (-1)).toNat)) 0) } :=
  ⟨by decide, (c4_commit negG exampleState 0).1 (by decide)⟩

theorem set_max_comm (c₁ c₂ : Nat) (v₁ v₂ : Int) (mns : List Int) :
    (mns.set c₁ (max (mns.getD c₁ (-1)) v₁)).set c₂
        (max ((mns.set c₁ (max (mns.getD c₁ (-1)) v₁)).getD c₂ (-1)) v₂) =
      (mns.set c₂ (max (mns.getD c₂ (-1)) v₂)).set c₁
        (max ((mns.set c₂ (max (mns.getD c₂ (-1)) v₂)).getD c₁ (-1)) v₁) := by
  by_cases h : c₁ = c₂
  · subst h
    by_cases hlen : c₁ < mns.length
    · rw [List.set_set, List.set_set, getD_set_self _ _ _ _ hlen,
        getD_set_self _ _ _ _ hlen]
      rw [max_assoc, max_comm v₁ v₂, ← max_assoc]
    · have hle := Nat.le_of_not_lt hlen
      simp [List.set_eq_of_length_le hle]
  · rw [getD_set_ne _ _ _ h, getD_set_ne _ _ _ (Ne.symm h), List.set_comm _ _ _ h]

theorem select_phase_mn (G : Graph) (l : List Nat) (s : MstState) :
    (runFilter (get_min_neighbors G) s l).1 =
      { s with min_neighbors :=
          l.foldl (fun mns e =>
            if ((G.get_edge_weight e : Int) : WithTop Int) =
                s.min_weights.getD (s.roots.getD (G.get_source_vertex e) 0) ⊤ then
              mns.set (s.roots.getD (G.get_source_vertex e) 0)
                (max (mns.getD (s.roots.getD (G.get_source_vertex e) 0) (-1)) (e : Int))
            else mns) s.min_neighbors } := by
  induction l generalizing s with
  | nil => rfl
  | cons e es ih =>
    simp only [runFilter, List.foldl_cons]
    by_cases hcond : ((G.get_edge_weight e : Int) : WithTop Int) =
        s.min_weights.getD (s.roots.getD (G.get_source_vertex e) 0) ⊤
    · have hstep : (get_min_neighbors G s e).1 =
          { s with min_neighbors :=
              (s.min_neighbors.set (s.roots.getD (G.get_source_vertex e) 0)
                (max (s.min_neighbors.getD (s.roots.getD (G.get_source_vertex e) 0) (-1))
                  (e : Int))) } := by
        simp only [get_min_neighbors]
        rw [if_pos hcond]
      rw [hstep, ih, if_pos hcond]
    · have hstep : (get_min_neighbors G s e).1 = s := by
        simp only [get_min_neighbors]
        rw [if_neg hcond]
      rw [hstep, ih, if_neg hcond]

theorem foldl_mn_getD (G : Graph) (roots : List Nat) (mw : List (WithTop Int))
    (l : List Nat) (mns : List Int) (c : Nat) (hc : c < mns.length) :
    (l.foldl (fun mns e =>
        if ((G.get_edge_weight e : Int) : WithTop Int) =
            mw.getD (roots.getD (G.get_source_vertex e) 0) ⊤ then
          mns.set (roots.getD (G.get_source_vertex e) 0)
            (max (mns.getD (roots.getD (G.get_source_vertex e) 0) (-1)) (e : Int))
        else mns) mns).getD c (-1) =
      (l.filter (fun e : Nat =>
          decide (roots.getD (G.get_source_vertex e) 0 = c) &&
          decide (((G.get_edge_weight e : Int) : WithTop Int) = mw.getD c ⊤))).foldl
        (fun (a : Int) (e : Nat) => max a (e : Int)) (mns.getD c (-1)) := by
  induction l generalizing mns with
  | nil => rfl
  | cons e es ih =>
    rw [List.foldl_cons, List.filter_cons]
    by_cases hsrc : roots.getD (G.get_source_vertex e) 0 = c
    · by_cases hw : ((G.get_edge_weight e : Int) : WithTop Int) = mw.getD c ⊤
      · rw [if_pos (by rw [hsrc]; exact hw)]
        rw [if_pos (by rw [Bool.and_eq_true, decide_eq_true_eq, decide_eq_true_eq]; exact ⟨hsrc, hw⟩)]
        rw [List.foldl_cons]
        rw [ih _ (by simpa using hc)]
        rw [hsrc, getD_set_self _ _ _ _ hc]
      · rw [if_neg (by rw [hsrc]; exact hw)]
        rw [if_neg (by rw [Bool.and_eq_true, decide_eq_true_eq, decide_eq_true_eq]; exact fun h => hw h.2)]
        exact ih _ hc
    · by_cases hw : ((G.get_edge_weight e : Int) : WithTop Int) =
          mw.getD (roots.getD (G.get_source_vertex e) 0) ⊤
      · rw [if_pos hw]
        rw [if_neg (by rw [Bool.and_eq_true, decide_eq_true_eq, decide_eq_true_eq]; exact fun h => hsrc h.1)]
        rw [ih _ (by simpa using hc)]
        rw [getD_set_ne _ _ _ hsrc]
      · rw [if_neg hw]
        rw [if_neg (by rw [Bool.and_eq_true, decide_eq_true_eq, decide_eq_true_eq]; exact fun h => hsrc h.1)]
        exact ih _ hc

/-- C6: The neighbor-selection phase is execution-order independent: any two
interleavings (permutations of the frontier) produce the same final state,
and the final `min_neighbors` value of each component is the fold of `max`
over that component's equal-minimum-weight candidate edge ids — so the
highest edge id among equal-weight candidates wins, regardless of order. -/
theorem c6_selection_determinism (G : Graph) (s : MstState) (l₁ l₂ : List Nat)
    (hp : l₁.Perm l₂) :
    (runFilter (get_min_neighbors G) s l₁).1 =
      (runFilter (get_min_neighbors G) s l₂).1 ∧
    ∀ c, c < s.min_neighbors.length →
      ((runFilter (get_min_neighbors G) s l₁).1).min_neighbors.getD c (-1) =
        (l₁.filter (fun e : Nat =>
            decide (s.roots.getD (G.get_source_vertex e) 0 = c) &&
            decide (((G.get_edge_weight e : Int) : WithTop Int) =
              s.min_weights.getD c ⊤))).foldl
          (fun (a : Int) (e : Nat) => max a (e : Int)) (s.min_neighbors.getD c (-1)) := by
  constructor
  · rw [select_phase_mn, select_phase_mn]
    have hfold := hp.foldl_eq'
      (f := fun mns e =>
        if ((G.get_edge_weight e : Int) : WithTop Int) =
            s.min_weights.getD (s.roots.getD (G.get_source_vertex e) 0) ⊤ then
          mns.set (s.roots.getD (G.get_source_vertex e) 0)
            (max (mns.getD (s.roots.getD (G.get_source_vertex e) 0) (-1)) (e : Int))
        else mns)
      (by
        intro x _hx y _hy z
        by_cases hx : ((G.get_edge_weight x : Int) : WithTop Int) =
            s.min_weights.getD (s.roots.getD (G.get_source_vertex x) 0) ⊤ <;>
          by_cases hy : ((G.get_edge_weight y : Int) : WithTop Int) =
              s.min_weights.getD (s.roots.getD (G.get_source_vertex y) 0) ⊤ <;>
          simp only [hx, hy, if_pos, if_neg, if_true, if_false]
        exact set_max_comm _ _ _ _ z)
      s.min_neighbors
    rw [hfold]
  · intro c hc
    rw [select_phase_mn]
    exact foldl_mn_getD G s.roots s.min_weights l₁ s.min_neighbors c hc

/-- Witness for C6: the two interleavings of the two-edge frontier of the
negative-weight graph after relaxation give the same state. -/
theorem c6_selection_determinism_witness :
    ([0, 1] : List Nat).Perm [1, 0] ∧
    (runFilter (get_min_neighbors negG)
        (runFilter (get_min_weights negG) (init 2) [0, 1]).1 [0, 1]).1 =
      (runFilter (get_min_neighbors negG)
        (runFilter (get_min_weights negG) (init 2) [0, 1]).1 [1, 0]).1 :=
  ⟨by decide,
    (c6_selection_determinism negG
      (runFilter (get_min_weights negG) (init 2) [0, 1]).1 [0, 1] [1, 0] (by decide)).1⟩

theorem isRoot_of_length_le (roots : List Nat) (u : Nat) (h : roots.length ≤ u) :
    IsRoot roots u := by
  unfold IsRoot
  exact List.getD_eq_default _ _ h

theorem chase_of_isRoot (roots : List Nat) (u : Nat) (h : IsRoot roots u) :
    ∀ f, chase roots f u = u
  | 0 => rfl
  | f + 1 => by unfold chase; exact if_pos h

theorem chase_isRoot (roots : List Nat) (f : Nat) (u : Nat)
    (h : ∃ k ≤ f, IsRoot roots ((step1 roots)^[k] u)) :
    IsRoot roots (chase roots f u) := by
  induction f generalizing u with
  | zero =>
    obtain ⟨k, hk, hr⟩ := h
    have hk0 : k = 0 := Nat.le_zero.mp hk
    subst hk0
    simpa using hr
  | succ f ih =>
    by_cases hu : IsRoot roots u
    · rw [chase_of_isRoot roots u hu]
      exact hu
    · unfold chase
      rw [if_neg (show ¬ roots.getD u u = u from hu)]
      apply ih
      obtain ⟨k, hk, hr⟩ := h
      cases k with
      | zero => exact absurd (by simpa using hr) hu
      | succ k =>
        refine ⟨k, Nat.le_of_succ_le_succ hk, ?_⟩
        show IsRoot roots ((step1 roots)^[k] (step1 roots u))
        rw [← Function.iterate_succ_apply]
        exact hr

theorem terminates_bound (roots : List Nat) (h : Terminates roots) (u : Nat) :
    ∃ k ≤ roots.length, IsRoot roots ((step1 roots)^[k] u) := by
  have hex : ∃ k, IsRoot roots ((step1 roots)^[k] u) := h u
  refine ⟨Nat.find hex, ?_, Nat.find_spec hex⟩
  by_contra hgt
  push_neg at hgt
  have hlt : ∀ m, m ≤ roots.length → (step1 roots)^[m] u < roots.length := by
    intro m hm
    by_contra hge
    exact Nat.find_min hex (lt_of_le_of_lt hm hgt)
      (isRoot_of_length_le roots _ (Nat.le_of_not_lt hge))
  obtain ⟨i, j, hij, heq⟩ := Fintype.exists_ne_map_eq_of_card_lt
    (fun i : Fin (roots.length + 1) =>
      (⟨(step1 roots)^[(i : Nat)] u, hlt i (Nat.le_of_lt_succ i.2)⟩ : Fin roots.length))
    (by simp)
  have heq' : (step1 roots)^[(i : Nat)] u = (step1 roots)^[(j : Nat)] u :=
    congrArg Fin.val heq
  have key : ∀ a b : Nat, a < b → b ≤ roots.length →
      (step1 roots)^[a] u = (step1 roots)^[b] u → False := by
    intro a b hab hbn hiter
    have hbf : b < Nat.find hex := lt_of_le_of_lt hbn hgt
    have hroot : IsRoot roots ((step1 roots)^[Nat.find hex - b + a] u) := by
      rw [Function.iterate_add_apply, hiter, ← Function.iterate_add_apply]
      have h2 : Nat.find hex - b + b = Nat.find hex := Nat.sub_add_cancel (le_of_lt hbf)
      rw [h2]
      exact Nat.find_spec hex
    exact Nat.find_min hex (by omega) hroot
  rcases Nat.lt_or_ge (i : Nat) (j : Nat) with hlt2 | hge2
  · exact key i j hlt2 (Nat.le_of_lt_succ j.2) heq'
  · have hne : (j : Nat) < (i : Nat) :=
      lt_of_le_of_ne hge2 fun hv => hij (Fin.ext hv.symm)
    exact key j i hne (Nat.le_of_lt_succ i.2) heq'.symm

theorem contract_length (roots : List Nat) :
    (contract roots).length = roots.length := by
  simp [contract]

theorem contract_getD (roots : List Nat) (v : Nat) (hv : v < roots.length) (d : Nat) :
    (contract roots).getD v d = chase roots roots.length (roots.getD v v) := by
  unfold contract jump_pointers_parallel
  rw [List.getD_eq_getElem _ _ (by simpa using hv)]
  simp

theorem step1_contract_isRoot (roots : List Nat) (h : Terminates roots) (v : Nat) :
    IsRoot roots (step1 (contract roots) v) := by
  by_cases hv : v < roots.length
  · have hs : step1 (contract roots) v = chase roots roots.length (roots.getD v v) := by
      unfold step1
      exact contract_getD roots v hv v
    rw [hs]
    exact chase_isRoot roots _ _ (terminates_bound roots h _)
  · have hs : step1 (contract roots) v = v := by
      unfold step1
      exact List.getD_eq_default _ _ (by rw [contract_length]; exact Nat.le_of_not_lt hv)
    rw [hs]
    exact isRoot_of_length_le roots v (Nat.le_of_not_lt hv)

theorem step1_contract_idem (roots : List Nat) (h : Terminates roots) (v : Nat) :
    step1 (contract roots) (step1 (contract roots) v) = step1 (contract roots) v := by
  have hroot : IsRoot roots (step1 (contract roots) v) := step1_contract_isRoot roots h v
  generalize hu : step1 (contract roots) v = u at hroot ⊢
  by_cases hun : u < roots.length
  · show step1 (contract roots) u = u
    unfold step1
    rw [contract_getD roots u hun u]
    rw [show roots.getD u u = u from hroot]
    exact chase_of_isRoot roots u hroot _
  · show step1 (contract roots) u = u
    unfold step1
    exact List.getD_eq_default _ _ (by rw [contract_length]; exact Nat.le_of_not_lt hun)

/-- C5: For every roots array whose pointer chasing terminates (no cycle
among root pointers), union-find contraction is idempotent — running it a
second time with no intervening commit reproduces the identical array — and
after one run every chain has length one: `roots[roots[v]] == roots[v]` for
every vertex. -/
theorem c5_contraction_idempotent (roots : List Nat) (h : Terminates roots) :
    contract (contract roots) = contract roots ∧
    ∀ v, step1 (contract roots) (step1 (contract roots) v) = step1 (contract roots) v := by
  refine ⟨?_, step1_contract_idem roots h⟩
  apply List.ext_getElem
  · rw [contract_length, contract_length]
  · intro i h1 h2
    have hiR : i < (contract roots).length := h2
    have hL : (contract (contract roots))[i] =
        chase (contract roots) (contract roots).length ((contract roots).getD i i) := by
      rw [← List.getD_eq_getElem _ i h1]
      exact contract_getD (contract roots) i hiR i
    have hroot2 : IsRoot (contract roots) ((contract roots).getD i i) := by
      show (contract roots).getD ((contract roots).getD i i) ((contract roots).getD i i) =
        (contract roots).getD i i
      exact step1_contract_idem roots h i
    rw [hL, chase_of_isRoot _ _ hroot2]
    exact List.getD_eq_getElem _ i h2

theorem terminates_example : Terminates [1, 2, 2, 0] := by
  intro v
  refine ⟨4, ?_⟩
  by_cases hv : v < 4
  · interval_cases v <;> decide
  · have hfix : step1 [1, 2, 2, 0] v = v := by
      unfold step1
      exact List.getD_eq_default _ _ (by simpa using Nat.le_of_not_lt hv)
    rw [Function.iterate_fixed hfix]
    exact isRoot_of_length_le _ _ (by simpa using Nat.le_of_not_lt hv)

/-- Witness for C5: a four-vertex roots array with a three-step chain. -/
theorem c5_contraction_idempotent_witness :
    Terminates [1, 2, 2, 0] ∧
    contract (contract [1, 2, 2, 0]) = contract [1, 2, 2, 0] :=
  ⟨terminates_example, (c5_contraction_idempotent _ terminates_example).1⟩

theorem get_min_weights_mstw (G : Graph) (t : MstState) (e : Nat) :
    ((get_min_weights G t e).1).mst_weight = t.mst_weight := by
  simp only [get_min_weights]
  split <;> rfl

theorem get_min_weights_sv (G : Graph) (t : MstState) (e : Nat) :
    ((get_min_weights G t e).1).super_vertices = t.super_vertices := by
  simp only [get_min_weights]
  split <;> rfl

theorem get_min_neighbors_mstw (G : Graph) (t : MstState) (e : Nat) :
    ((get_min_neighbors G t e).1).mst_weight = t.mst_weight := by
  simp only [get_min_neighbors]
  split <;> rfl

theorem get_min_neighbors_sv (G : Graph) (t : MstState) (e : Nat) :
    ((get_min_neighbors G t e).1).super_vertices = t.super_vertices := by
  simp only [get_min_neighbors]
  split <;> rfl

theorem get_edge_weight_nonneg (G : Graph) (hw : ∀ a ∈ G.edges, 0 ≤ a.w) (e : Nat) :
    0 ≤ G.get_edge_weight e := by
  unfold Graph.get_edge_weight
  by_cases he : e < G.edges.length
  · rw [List.getD_eq_getElem _ _ he]
    exact hw _ (List.getElem_mem he)
  · rw [List.getD_eq_default _ _ (Nat.le_of_not_lt he)]

theorem relax_mw_nonneg (G : Graph) (hw : ∀ a ∈ G.edges, 0 ≤ a.w)
    (l : List Nat) (s : MstState)
    (hs : ∀ c, (0 : WithTop Int) ≤ s.min_weights.getD c ⊤) :
    ∀ c, (0 : WithTop Int) ≤ ((runFilter (get_min_weights G) s l).1).min_weights.getD c ⊤ := by
  induction l generalizing s with
  | nil => exact hs
  | cons e es ih =>
    simp only [runFilter]
    apply ih
    intro c
    simp only [get_min_weights]
    split
    · by_cases hc : s.roots.getD (G.get_source_vertex e) 0 = c
      · subst hc
        by_cases hlen : s.roots.getD (G.get_source_vertex e) 0 < s.min_weights.length
        · show (0 : WithTop Int) ≤ (s.min_weights.set _ _).getD _ ⊤
          rw [getD_set_self _ _ _ _ hlen]
          refine le_min (hs _) ?_
          exact_mod_cast get_edge_weight_nonneg G hw e
        · show (0 : WithTop Int) ≤ (s.min_weights.set _ _).getD _ ⊤
          rw [List.set_eq_of_length_le (Nat.le_of_not_lt hlen)]
          exact hs _
      · show (0 : WithTop Int) ≤ (s.min_weights.set _ _).getD c ⊤
        rw [getD_set_ne _ _ _ hc]
        exact hs _
    · exact hs c

theorem untop'_nonneg (x : WithTop Int) (h : (0 : WithTop Int) ≤ x) :
    0 ≤ x.untop' 0 := by
  cases x with
  | top => simp [WithTop.untop']
  | coe a =>
    have ha : (0 : Int) ≤ a := by exact_mod_cast h
    simpa [WithTop.untop'] using ha

theorem add_to_mst_mono (G : Graph) (s : MstState) (v : Nat)
    (hmw : ∀ c, (0 : WithTop Int) ≤ s.min_weights.getD c ⊤) :
    s.mst_weight ≤ (add_to_mst G s v).mst_weight ∧
    (add_to_mst G s v).super_vertices ≤ s.super_vertices ∧
    (add_to_mst G s v).min_weights = s.min_weights := by
  simp only [add_to_mst]
  split
  · exact ⟨le_refl _, le_refl _, rfl⟩
  · split
    · refine ⟨?_, ?_, rfl⟩
      · have h0 : 0 ≤ (s.min_weights.getD v ⊤).untop' 0 := untop'_nonneg _ (hmw v)
        exact le_add_of_nonneg_right h0
      · show s.super_vertices + (-1) ≤ s.super_vertices
        omega
    · exact ⟨le_refl _, le_refl _, rfl⟩

theorem commit_fold_mono (G : Graph) (L : List Nat) (s : MstState)
    (hmw : ∀ c, (0 : WithTop Int) ≤ s.min_weights.getD c ⊤) :
    s.mst_weight ≤ (L.foldl (add_to_mst G) s).mst_weight ∧
    (L.foldl (add_to_mst G) s).super_vertices ≤ s.super_vertices := by
  induction L generalizing s with
  | nil => exact ⟨le_refl _, le_refl _⟩
  | cons v L ih =>
    rw [List.foldl_cons]
    obtain ⟨h1, h2, h3⟩ := add_to_mst_mono G s v hmw
    obtain ⟨h4, h5⟩ := ih (add_to_mst G s v) (by rw [h3]; exact hmw)
    exact ⟨le_trans h1 h4, le_trans h5 h2⟩

theorem replicate_top_nonneg (n : Nat) :
    ∀ c, (0 : WithTop Int) ≤ (List.replicate n (⊤ : WithTop Int)).getD c ⊤ := by
  intro c
  by_cases hc : c < n
  · rw [List.getD_eq_getElem _ _ (by simpa using hc)]
    simp
  · rw [List.getD_eq_default _ _ (by simpa using Nat.le_of_not_lt hc)]
    exact le_top

theorem round_mono (G : Graph) (sf : MstState × List Nat)
    (hw : ∀ a ∈ G.edges, 0 ≤ a.w) :
    sf.1.mst_weight ≤ (round G sf).1.mst_weight ∧
    (round G sf).1.super_vertices ≤ sf.1.super_vertices := by
  obtain ⟨s, f⟩ := sf
  simp only [round, runFilter_pure]
  set S0 : MstState := { s with
    min_weights := List.replicate G.numVertices (⊤ : WithTop Int)
    min_neighbors := List.replicate G.numVertices (-1 : Int) } with hS0
  set R1 := runFilter (get_min_weights G) S0 f with hR1
  set R2 := runFilter (get_min_neighbors G) R1.1 R1.2 with hR2
  have hmwS0 : ∀ c, (0 : WithTop Int) ≤ S0.min_weights.getD c ⊤ :=
    replicate_top_nonneg G.numVertices
  have hmwR1 : ∀ c, (0 : WithTop Int) ≤ (R1.1).min_weights.getD c ⊤ :=
    relax_mw_nonneg G hw f S0 hmwS0
  have hmwR2 : ∀ c, (0 : WithTop Int) ≤ (R2.1).min_weights.getD c ⊤ := by
    intro c
    rw [hR2, runFilter_fieldEq MstState.min_weights _
      (fun t e => get_min_neighbors_mw G t e)]
    exact hmwR1 c
  have eW1 : (R1.1).mst_weight = s.mst_weight := by
    rw [hR1, runFilter_fieldEq MstState.mst_weight _
      (fun t e => get_min_weights_mstw G t e)]
  have eW2 : (R2.1).mst_weight = s.mst_weight := by
    rw [hR2, runFilter_fieldEq MstState.mst_weight _
      (fun t e => get_min_neighbors_mstw G t e)]
    exact eW1
  have eS1 : (R1.1).super_vertices = s.super_vertices := by
    rw [hR1, runFilter_fieldEq MstState.super_vertices _
      (fun t e => get_min_weights_sv G t e)]
  have eS2 : (R2.1).super_vertices = s.super_vertices := by
    rw [hR2, runFilter_fieldEq MstState.super_vertices _
      (fun t e => get_min_neighbors_sv G t e)]
    exact eS1
  have hcf := commit_fold_mono G (List.range G.numVertices) R2.1 hmwR2
  constructor
  · exact le_trans (le_of_eq eW2.symm) hcf.1
  · exact le_trans hcf.2 (le_of_eq eS2)

/-- The state two rounds into the run on the two disjoint triangles is a
fixed point of the round function: one more round reproduces it exactly. -/
theorem discG_fixed : enactRounds discG 3 = enactRounds discG 2 := by decide

/-- C8 counterexample: on the two-vertex graph with edge weight -5 (negative
weights are not excluded), one round strictly decreases `mst_weight`; and on
the four-vertex connected graph `stallG`, round 2 leaves `super_vertices`
at 2 with the loop unconverged, so `live_components` does not strictly
decrease each round before termination. -/
theorem c8_counterexample :
    (enactRounds negG 1).1.mst_weight < (enactRounds negG 0).1.mst_weight ∧
    (enactRounds stallG 2).1.super_vertices = 2 ∧
    (enactRounds stallG 1).1.super_vertices = 2 ∧
    is_converged (enactRounds stallG 2).1 = false := by decide

theorem add_to_mst_sv (G : Graph) (s : MstState) (v : Nat) :
    (add_to_mst G s v).super_vertices ≤ s.super_vertices := by
  simp only [add_to_mst]
  split
  · exact le_refl _
  · split
    · show s.super_vertices + (-1) ≤ s.super_vertices
      omega
    · exact le_refl _

theorem commit_fold_sv (G : Graph) (L : List Nat) (s : MstState) :
    (L.foldl (add_to_mst G) s).super_vertices ≤ s.super_vertices := by
  induction L generalizing s with
  | nil => exact le_refl _
  | cons v L ih =>
    rw [List.foldl_cons]
    exact le_trans (ih _) (add_to_mst_sv G s v)

theorem round_sv_mono (G : Graph) (sf : MstState × List Nat) :
    (round G sf).1.super_vertices ≤ sf.1.super_vertices := by
  obtain ⟨s, f⟩ := sf
  simp only [round, runFilter_pure]
  set S0 : MstState := { s with
    min_weights := List.replicate G.numVertices (⊤ : WithTop Int)
    min_neighbors := List.replicate G.numVertices (-1 : Int) } with hS0
  set R1 := runFilter (get_min_weights G) S0 f with hR1
  set R2 := runFilter (get_min_neighbors G) R1.1 R1.2 with hR2
  have eS1 : (R1.1).super_vertices = s.super_vertices := by
    rw [hR1, runFilter_fieldEq MstState.super_vertices _
      (fun t e => get_min_weights_sv G t e)]
  have eS2 : (R2.1).super_vertices = s.super_vertices := by
    rw [hR2, runFilter_fieldEq MstState.super_vertices _
      (fun t e => get_min_neighbors_sv G t e)]
    exact eS1
  exact le_trans (commit_fold_sv G (List.range G.numVertices) R2.1) (le_of_eq eS2)

/-- C8 (amended): `super_vertices` (`live_components`) is non-increasing
round over round unconditionally — the commit phase only ever adds `-1` to
it — and `mst_weight` is mutated only by adding committed `min_weights`
cells during commit, hence non-decreasing round over round whenever every
edge weight is non-negative.  (With a negative weight `mst_weight` can
decrease, and a round may commit nothing, so the unamended claim's
negative-weight monotonicity and strict per-round decrease fail — see the
counterexample.) -/
theorem c8_monotonicity (G : Graph) (k : Nat) :
    (enactRounds G (k + 1)).1.super_vertices ≤ (enactRounds G k).1.super_vertices ∧
    ((∀ a ∈ G.edges, 0 ≤ a.w) →
      (enactRounds G k).1.mst_weight ≤ (enactRounds G (k + 1)).1.mst_weight) :=
  ⟨round_sv_mono G (enactRounds G k),
    fun hw => (round_mono G (enactRounds G k) hw).1⟩

/-- Witness for C8: round 1 on the non-negative-weight graph `stallG`, with
the weight hypothesis of the second conjunct discharged concretely. -/
theorem c8_monotonicity_witness :
    ((enactRounds stallG 1).1.super_vertices ≤ (enactRounds stallG 0).1.super_vertices ∧
      ((∀ a ∈ stallG.edges, 0 ≤ a.w) →
        (enactRounds stallG 0).1.mst_weight ≤ (enactRounds stallG 1).1.mst_weight)) ∧
    (∀ a ∈ stallG.edges, 0 ≤ a.w) ∧
    (enactRounds stallG 0).1.mst_weight ≤ (enactRounds stallG 1).1.mst_weight :=
  ⟨c8_monotonicity stallG 0, by decide, (c8_monotonicity stallG 0).2 (by decide)⟩

/-- C9 counterexample: on two disjoint triangles the implementation never
reports anything — there is no round bound and no error path in the source —
and never converges: from round 2 on, the state is a fixed point with
`super_vertices = 2`, so the loop runs forever. -/
theorem c9_counterexample :
    enactRounds discG 3 = enactRounds discG 2 ∧
    (enactRounds discG 2).1.super_vertices = 2 ∧
    is_converged (enactRounds discG 2).1 = false := by decide

/-- C9 (amended): the source has no safety bound and no
`GraphNotConnectedError`: `is_converged` only tests `super_vertices == 1`,
so on the two disjoint triangles every round count from 1 on leaves
`super_vertices = 2` and `is_converged` false — the loop hangs instead of
reporting. -/
theorem c9_nonconvergence (k : Nat) (hk : 1 ≤ k) :
    (enactRounds discG k).1.super_vertices = 2 ∧
    is_converged (enactRounds discG k).1 = false := by
  have hfix : ∀ m : Nat, enactRounds discG (2 + m) = enactRounds discG 2 := by
    intro m
    induction m with
    | zero => rfl
    | succ m ih =>
      show round discG (enactRounds discG (2 + m)) = enactRounds discG 2
      rw [ih]
      exact discG_fixed
  match k, hk with
  | 1, _ => exact ⟨by decide, by decide⟩
  | (m + 2), _ =>
    have h2 : enactRounds discG (m + 2) = enactRounds discG 2 := by
      have := hfix m
      rwa [Nat.add_comm] at this
    rw [h2]
    exact ⟨by decide, by decide⟩

/-- Witness for C9 at round count 5. -/
theorem c9_nonconvergence_witness :
    1 ≤ 5 ∧ ((enactRounds discG 5).1.super_vertices = 2 ∧
      is_converged (enactRounds discG 5).1 = false) :=
  ⟨by decide, c9_nonconvergence 5 (by decide)⟩

theorem foldl_max_lt (L : List Nat) (a B : Int) (ha : a < B)
    (hL : ∀ e ∈ L, (e : Int) < B) :
    L.foldl (fun (x : Int) (e : Nat) => max x (e : Int)) a < B := by
  induction L generalizing a with
  | nil => exact ha
  | cons b L ih =>
    rw [List.foldl_cons]
    exact ih _ (max_lt ha (hL b (List.mem_cons_self b L)))
      (fun e he => hL e (List.mem_cons_of_mem b he))

end GunrockMST
